import Mathlib

/-!
Verification of the uorm dynamic-SQL templating and transaction layer.

This file shallowly embeds the template parser (`src/tpl/parser.rs`), the
renderer and boolean-expression evaluator (`src/tpl/render.rs`), the render
context (`src/tpl/render_context.rs`), the template cache (`src/tpl/cache.rs`)
and the transaction-context lifecycle (`src/transaction.rs`) into Lean, and
proves the specification claims about them.

Embedding conventions:
* Rust `String`/`&str` values are Lean `String`s; string algorithms
  (splitting, trimming, scanning) are implemented on `List Char`, which
  coincides with the source's byte-level scanning on the ASCII inputs the
  template language uses.
* `f64` is idealised as `ℚ` with exact arithmetic (`f64::EPSILON = 2⁻⁵²`
  becomes the rational `eps64`); integer-to-float casts are exact.
* Machine integers are `Int`/`Nat`; none of the verified code paths overflow.
* The globally shared template cache is passed as an explicit map argument.
* Loops with `break`/`continue` become structural recursions; functions whose
  Rust recursion is not obviously well-founded (the parser's scan loop, the
  renderer's `Include` expansion) take an explicit fuel argument; the parser
  is always invoked with fuel `length + 1`, which is sufficient because every
  iteration of the Rust loop consumes at least one character.
-/

/-! ## The `Value` data model (`src/udbc/value.rs`) -/

/-- Model of `Value` from `src/udbc/value.rs`: the backend-agnostic tagged union.
Date/time payloads are abstracted to `Int` (chrono's internal counters) and
`Decimal`/`f64` payloads to `ℚ`; `HashMap<String, Value>` becomes an
association list. -/
inductive Value where
  | Null : Value
  | Bool (b : Bool) : Value
  | I16 (n : Int) : Value
  | I32 (n : Int) : Value
  | I64 (n : Int) : Value
  | U8 (n : Nat) : Value
  | F64 (q : ℚ) : Value
  | Str (s : String) : Value
  | Bytes (bs : List Nat) : Value
  | Date (d : Int) : Value
  | Time (t : Int) : Value
  | DateTime (t : Int) : Value
  | DateTimeUtc (t : Int) : Value
  | Decimal (q : ℚ) : Value
  | List (vs : List Value) : Value
  | Map (m : List (String × Value)) : Value

mutual

/-- Structural equality of `Value`s, modelling the `#[derive(PartialEq)]`
instance on `src/udbc/value.rs` (on the idealised payloads; the association
lists standing in for `HashMap` compare entry lists in order). -/
def beqValue : Value → Value → Bool
  | .Null, .Null => true
  | .Bool a, .Bool b => a == b
  | .I16 a, .I16 b => a == b
  | .I32 a, .I32 b => a == b
  | .I64 a, .I64 b => a == b
  | .U8 a, .U8 b => a == b
  | .F64 a, .F64 b => a == b
  | .Str a, .Str b => a == b
  | .Bytes a, .Bytes b => a == b
  | .Date a, .Date b => a == b
  | .Time a, .Time b => a == b
  | .DateTime a, .DateTime b => a == b
  | .DateTimeUtc a, .DateTimeUtc b => a == b
  | .Decimal a, .Decimal b => a == b
  | .List a, .List b => beqValueList a b
  | .Map a, .Map b => beqValueMap a b
  | _, _ => false

/-- Elementwise equality of `Vec<Value>`. -/
def beqValueList : List Value → List Value → Bool
  | [], [] => true
  | x :: xs, y :: ys => beqValue x y && beqValueList xs ys
  | _, _ => false

/-- Entrywise equality of the association lists standing in for maps. -/
def beqValueMap : List (String × Value) → List (String × Value) → Bool
  | [], [] => true
  | (k1, v1) :: xs, (k2, v2) :: ys =>
    k1 == k2 && beqValue v1 v2 && beqValueMap xs ys
  | _, _ => false

end

/-! ## Character-list string utilities

These model the Rust standard-library string operations the template code
uses (`split`, `split_once`, `trim`, `find`, `starts_with`, `ends_with`),
operating on `List Char`. -/

/-- Rust `str::split_once(pat)`: splits at the first occurrence of `pat`,
returning the parts before and after it. -/
def splitOnceSub (pat : List Char) : List Char → Option (List Char × List Char)
  | [] => if pat.isPrefixOf [] then some ([], []) else none
  | c :: cs =>
    if pat.isPrefixOf (c :: cs) then some ([], (c :: cs).drop pat.length)
    else (splitOnceSub pat cs).map (fun p => (c :: p.1, p.2))

/-- Fuelled worker for `splitOnSub`. -/
def splitOnSubGo (pat : List Char) : Nat → List Char → List (List Char)
  | 0, l => [l]
  | fuel + 1, l =>
    match splitOnceSub pat l with
    | none => [l]
    | some (a, b) => a :: splitOnSubGo pat fuel b

/-- Rust `str::split(pat)` for a non-empty pattern: leftmost non-overlapping
occurrences. `length + 1` fuel always suffices (each match consumes at least
one character). -/
def splitOnSub (pat l : List Char) : List (List Char) :=
  splitOnSubGo pat (l.length + 1) l

/-- Rust `str::trim`: drop leading and trailing whitespace. -/
def trimChars (l : List Char) : List Char :=
  ((l.dropWhile Char.isWhitespace).reverse.dropWhile Char.isWhitespace).reverse

/-- Index of the first occurrence of character `c` (Rust `str::find(char)`). -/
def idxOfChar (c : Char) : List Char → Option Nat
  | [] => none
  | x :: xs => if x = c then some 0 else (idxOfChar c xs).map (· + 1)

/-- Index of the first occurrence of substring `pat` (Rust `str::find(&str)`). -/
def idxOfSub (pat : List Char) : List Char → Option Nat
  | [] => if pat.isPrefixOf [] then some 0 else none
  | c :: cs =>
    if pat.isPrefixOf (c :: cs) then some 0
    else (idxOfSub pat cs).map (· + 1)

/-- Rust `i64::from_str`: optional sign, one or more ASCII digits, range
checked against `i64`. -/
def parseI64 (l : List Char) : Option Int :=
  let (sign, digits) :=
    match l with
    | '-' :: rest => ((-1 : Int), rest)
    | '+' :: rest => ((1 : Int), rest)
    | _ => ((1 : Int), l)
  if digits = [] ∨ ¬ digits.all Char.isDigit then none
  else
    let n : Int := sign * ((digits.foldl (fun a c => a * 10 + (c.toNat - 48)) (0 : Nat) : Nat) : Int)
    if -(2 ^ 63) ≤ n ∧ n < 2 ^ 63 then some n else none

/-- Decimal mantissa/exponent parse used by `parseF64`: digits with an
optional single dot, as an exact rational. -/
def parseMantissa (l : List Char) : Option ℚ :=
  match splitOnceSub ['.'] l with
  | none =>
    if l = [] ∨ ¬ l.all Char.isDigit then none
    else some ((l.foldl (fun a c => a * 10 + (c.toNat - 48)) 0 : Nat) : ℚ)
  | some (ip, fp) =>
    if (ip = [] ∧ fp = []) ∨ ¬ ip.all Char.isDigit ∨ ¬ fp.all Char.isDigit ∨
        fp.contains '.' then none
    else
      let ipn : Nat := ip.foldl (fun a c => a * 10 + (c.toNat - 48)) 0
      let fpn : Nat := fp.foldl (fun a c => a * 10 + (c.toNat - 48)) 0
      some ((ipn : ℚ) + (fpn : ℚ) / ((10 : ℚ) ^ fp.length))

/-- Rust `f64::from_str`, idealised to exact rationals: optional sign,
decimal mantissa, optional `e`/`E` exponent (the `inf`/`NaN` spellings are
not modelled; no verified claim exercises them). -/
def parseF64 (l : List Char) : Option ℚ :=
  let (sign, rest) :=
    match l with
    | '-' :: r => ((-1 : ℚ), r)
    | '+' :: r => ((1 : ℚ), r)
    | _ => ((1 : ℚ), l)
  let (mant, ex) :=
    match splitOnceSub ['e'] rest with
    | some (m, e) => (m, some e)
    | none =>
      match splitOnceSub ['E'] rest with
      | some (m, e) => (m, some e)
      | none => (rest, none)
  match parseMantissa mant with
  | none => none
  | some q =>
    match ex with
    | none => some (sign * q)
    | some e =>
      match parseI64 e with
      | none => none
      | some n => some (sign * q * (10 : ℚ) ^ n)

/-! ## Render context (`src/tpl/render_context.rs`) -/

/-- Model of `Context` from `src/tpl/render_context.rs`: a root `Value` plus a stack
of local bindings. The Rust code pushes at the end of a `Vec` and searches
it in reverse; here `locals` stores the most recently pushed binding at the
head, so push is `cons` and search is leftmost `find?`. Values are stored by
value rather than by reference. -/
structure Context where
  root : Value
  locals : List (String × Value)

/-- Association-list lookup standing in for `HashMap::get`. -/
def assocGet (m : List (String × Value)) (key : String) : Option Value :=
  (m.find? (fun p => p.1 = key)).map (·.2)

/-- Model of `Context::push`. -/
def Context.push (c : Context) (key : String) (v : Value) : Context :=
  { c with locals := (key, v) :: c.locals }

/-- Model of `Context::get_from_scope`: locals (most recent first), then the root if
it is a `Map`. -/
def Context.get_from_scope (c : Context) (key : String) : Option Value :=
  match c.locals.find? (fun p => p.1 = key) with
  | some p => some p.2
  | none =>
    match c.root with
    | .Map m => assocGet m key
    | _ => none

/-- Model of `Context::resolve_path`: walk the remaining dot-separated path strictly
through `Map` entries. -/
def resolvePathParts : Value → List String → Option Value
  | cur, [] => some cur
  | cur, p :: ps =>
    match cur with
    | .Map m =>
      match assocGet m p with
      | some v => resolvePathParts v ps
      | none => none
    | _ => none

/-- Model of `Context::resolve_path` on the raw `path` string (`path.split('.')`). -/
def resolvePath (v : Value) (path : String) : Option Value :=
  resolvePathParts v ((splitOnSub ['.'] path.data).map String.mk)

/-- Model of `Context::lookup`: exact match through locals-then-root first; failing
that, for a dotted key resolve the head segment through the same order and
walk the rest; degrade to `Null`. -/
def Context.lookup (c : Context) (key : String) : Value :=
  match c.get_from_scope key with
  | some v => v
  | none =>
    match splitOnceSub ['.'] key.data with
    | some (head, rest) =>
      match c.get_from_scope (String.mk head) with
      | some headValue =>
        match resolvePath headValue (String.mk rest) with
        | some target => target
        | none => .Null
      | none => .Null
    | none => .Null

/-! ## Boolean expression evaluation (`src/tpl/render.rs`) -/

/-- Model of `to_f64` from `src/tpl/render.rs`: numeric variants coerce to the
idealised float (`ℚ`); everything else is non-numeric. -/
def to_f64 : Value → Option ℚ
  | .I16 n => some (n : ℚ)
  | .I32 n => some (n : ℚ)
  | .I64 n => some (n : ℚ)
  | .U8 n => some (n : ℚ)
  | .F64 q => some q
  | _ => none

/-- Model of `f64::EPSILON = 2⁻⁵²` as an exact rational. -/
def eps64 : ℚ := 1 / 2 ^ 52

/-- The right-hand side of a comparison atom (`src/tpl/render.rs`,
`eval_atom`): literal `null`/`true`/`false`, a quoted string, an integer, a
float, else a context lookup. -/
def atomRight (ctx : Context) (valStr : List Char) : Value :=
  if valStr = "null".data then .Null
  else if valStr = "true".data then .Bool true
  else if valStr = "false".data then .Bool false
  else if (['\''].isPrefixOf valStr ∧ ['\''].isSuffixOf valStr) ∨
      (['"'].isPrefixOf valStr ∧ ['"'].isSuffixOf valStr) then
    .Str (String.mk ((valStr.drop 1).take (valStr.length - 2)))
  else
    match parseI64 valStr with
    | some n => .I64 n
    | none =>
      match parseF64 valStr with
      | some q => .F64 q
      | none => ctx.lookup (String.mk valStr)

/-- The `match op` at the end of `eval_atom`: numeric comparisons coerce via
`to_f64` (equality within `eps64`); other comparisons are `false` unless both
sides are numeric; `==`/`!=` fall back to structural `Value` equality. -/
def atomCompare (op : String) (left right : Value) : Bool :=
  match op with
  | "==" =>
    match to_f64 left, to_f64 right with
    | some l, some r => |l - r| < eps64
    | _, _ => beqValue left right
  | "!=" =>
    match to_f64 left, to_f64 right with
    | some l, some r => |l - r| > eps64
    | _, _ => ! beqValue left right
  | ">" =>
    match to_f64 left, to_f64 right with
    | some l, some r => l > r
    | _, _ => false
  | ">=" =>
    match to_f64 left, to_f64 right with
    | some l, some r => l ≥ r
    | _, _ => false
  | "<" =>
    match to_f64 left, to_f64 right with
    | some l, some r => l < r
    | _, _ => false
  | "<=" =>
    match to_f64 left, to_f64 right with
    | some l, some r => l ≤ r
    | _, _ => false
  | _ => false

/-- Shared tail of `eval_atom` once the operator has split the atom. -/
def evalAtomCmp (ctx : Context) (key : List Char) (op : String)
    (valStr : List Char) : Bool :=
  atomCompare op (ctx.lookup (String.mk (trimChars key)))
    (atomRight ctx (trimChars valStr))

/-- Model of `eval_atom` from `src/tpl/render.rs`.  The atom is trimmed; an empty atom
is `false`; otherwise the first matching operator among `!=`, `==`, `>=`,
`<=`, `>`, `<` (in that order) splits it, and an operator-free atom is a
lookup that is truthy unless `Null` or `Bool(false)`. -/
def eval_atom (atom : String) (ctx : Context) : Bool :=
  let e := trimChars atom.data
  if e = [] then false
  else
    match splitOnceSub ['!', '='] e with
    | some (k, v) => evalAtomCmp ctx k "!=" v
    | none =>
      match splitOnceSub ['=', '='] e with
      | some (k, v) => evalAtomCmp ctx k "==" v
      | none =>
        match splitOnceSub ['>', '='] e with
        | some (k, v) => evalAtomCmp ctx k ">=" v
        | none =>
          match splitOnceSub ['<', '='] e with
          | some (k, v) => evalAtomCmp ctx k "<=" v
          | none =>
            match splitOnceSub ['>'] e with
            | some (k, v) => evalAtomCmp ctx k ">" v
            | none =>
              match splitOnceSub ['<'] e with
              | some (k, v) => evalAtomCmp ctx k "<" v
              | none =>
                match ctx.lookup (String.mk e) with
                | .Null => false
                | .Bool false => false
                | _ => true

/-- The inner `for atom in or_part.split(" and ")` loop of `eval_expr`
(breaks out as soon as an atom is false). -/
def evalAndLoop (ctx : Context) : List String → Bool
  | [] => true
  | atom :: rest => if eval_atom atom ctx then evalAndLoop ctx rest else false

/-- The outer `for or_part in expr.split(" or ")` loop of `eval_expr`
(returns as soon as a branch is satisfied). -/
def evalOrLoop (ctx : Context) : List String → Bool
  | [] => false
  | part :: rest =>
    if evalAndLoop ctx ((splitOnSub " and ".data part.data).map String.mk)
    then true
    else evalOrLoop ctx rest

/-- Model of `eval_expr` from `src/tpl/render.rs`. -/
def eval_expr (expr : String) (ctx : Context) : Bool :=
  evalOrLoop ctx ((splitOnSub " or ".data expr.data).map String.mk)

/-! ## Syntax tree (`src/tpl/mod.rs`) and renderer (`src/tpl/render.rs`) -/

/-- Model of `AstNode` from `src/tpl/mod.rs`.  The `open`/`close` literals of `For`
are named `openStr`/`closeStr` (`open` is reserved in Lean). -/
inductive AstNode where
  | Text (t : String) : AstNode
  | Var (name : String) : AstNode
  | Include (refid : String) : AstNode
  | If (test : String) (body : List AstNode) : AstNode
  | For (item collection openStr sep closeStr : String)
      (body : List AstNode) : AstNode

/-- Model of `RenderBuffer` from `src/tpl/render.rs`.  The `&dyn Driver` is modelled
by its only used capability, the `placeholder(sequence_index, name)`
function. -/
structure RenderBuffer where
  sql : String
  params : List (String × Value)
  driver : Nat → String → String
  param_count : Nat

/-- Model of `render` from `src/tpl/render.rs`.  The global `TEMPLATE_CACHE` read by
`Include` nodes is the explicit `cache` argument; `ctx` is threaded
functionally (every Rust `ctx.push` is matched by a `ctx.pop`, so the net
context is unchanged); `fuel` bounds the recursion depth and sibling count,
decreasing at each recursive call (`Include` can recurse into an arbitrary
cached tree, which is not structurally smaller). -/
def render (cache : String → Option (List AstNode)) :
    Nat → List AstNode → Context → RenderBuffer → RenderBuffer
  | 0, _, _, buf => buf
  | _ + 1, [], _, buf => buf
  | fuel + 1, node :: rest, ctx, buf =>
    let buf1 :=
      match node with
      | .Text t => { buf with sql := buf.sql ++ t }
      | .Var name =>
        let v := ctx.lookup name
        { buf with
          params := buf.params ++ [(name, v)],
          param_count := buf.param_count + 1,
          sql := buf.sql ++ buf.driver (buf.param_count + 1) name }
      | .Include refid =>
        match cache refid with
        | some cachedAst => render cache fuel cachedAst ctx buf
        | none => buf
      | .If test body =>
        if eval_expr test ctx then render cache fuel body ctx buf else buf
      | .For item collection openStr sep closeStr body =>
        match ctx.lookup collection with
        | .List arr =>
          if arr.isEmpty then buf
          else
            let bufOpen := { buf with sql := buf.sql ++ openStr }
            let folded := arr.foldl
              (fun (acc : RenderBuffer × Bool) v =>
                let b0 := if acc.2 then acc.1
                  else { acc.1 with sql := acc.1.sql ++ sep }
                (render cache fuel body (ctx.push item v) b0, false))
              (bufOpen, true)
            { folded.1 with sql := folded.1.sql ++ closeStr }
        | _ => buf
    render cache fuel rest ctx buf1

/-! ## Template parser (`src/tpl/parser.rs`) -/

/-- Model of `TagFrame` from `src/tpl/parser.rs`: one entry per open directive. -/
inductive TagFrame where
  | If (test : String) : TagFrame
  | For (item collection openStr sep closeStr : String) : TagFrame

/-- The parser's mutable state: the node-accumulation stack (one frame per
open directive plus the root frame) and the open-tag stack.  The Rust code
pushes at the end of each `Vec`; here the head of each list is the top of
the stack, and the nodes within a frame are likewise accumulated in reverse
(a frame is `List.reverse`d when its directive closes). -/
structure PState where
  nodesStack : List (List AstNode)
  tagStack : List TagFrame

/-- Model of `Parser::append_node`: push onto the current (top) frame. -/
def appendNode (st : PState) (node : AstNode) : PState :=
  match st.nodesStack with
  | frame :: stack => { st with nodesStack := (node :: frame) :: stack }
  | [] => st

/-- Model of `Parser::append_text`: merge with the previous `Text` node if there is
one. -/
def appendText (st : PState) (text : List Char) : PState :=
  match st.nodesStack with
  | (AstNode.Text t :: frame) :: stack =>
    { st with nodesStack := (AstNode.Text (t ++ String.mk text) :: frame) :: stack }
  | frame :: stack =>
    { st with nodesStack := (AstNode.Text (String.mk text) :: frame) :: stack }
  | [] => st

/-- Model of `find_tag_end`: index of the first `>` that is not inside a
double-quoted attribute value. -/
def findTagEnd : List Char → Bool → Option Nat
  | [], _ => none
  | c :: rest, inQuote =>
    if c = '"' then (findTagEnd rest (!inQuote)).map (· + 1)
    else if c = '>' ∧ !inQuote then some 0
    else (findTagEnd rest inQuote).map (· + 1)

/-- The `= "value"` suffix check of `extract_attr`: after the key, skip
whitespace, expect `=`, skip whitespace, expect a double-quoted value. -/
def attrValueAfterKey (l : List Char) : Option (List Char) :=
  match l.dropWhile Char.isWhitespace with
  | '=' :: rest =>
    match rest.dropWhile Char.isWhitespace with
    | '"' :: afterQuote =>
      match idxOfChar '"' afterQuote with
      | some endIdx => some (afterQuote.take endIdx)
      | none => none
    | _ => none
  | _ => none

/-- The `match_indices` loop of `extract_attr`: scan for non-overlapping
occurrences of `key` that are preceded by whitespace (or start the string)
and are followed by `= "value"`.  `prev` is the character before the
current position. -/
def extractAttrGo (key : List Char) : Nat → List Char → Option Char →
    Option (List Char)
  | 0, _, _ => none
  | fuel + 1, l, prev =>
    if key ≠ [] ∧ key.isPrefixOf l then
      let afterKey := l.drop key.length
      let nextPrev := some (key.getLastD ' ')
      match prev with
      | some p =>
        if p.isWhitespace then
          match attrValueAfterKey afterKey with
          | some v => some v
          | none => extractAttrGo key fuel afterKey nextPrev
        else extractAttrGo key fuel afterKey nextPrev
      | none =>
        match attrValueAfterKey afterKey with
        | some v => some v
        | none => extractAttrGo key fuel afterKey nextPrev
    else
      match l with
      | [] => none
      | c :: cs => extractAttrGo key fuel cs (some c)

/-- Model of `extract_attr` from `src/tpl/parser.rs`. -/
def extract_attr (tagContent : List Char) (key : String) : Option String :=
  (extractAttrGo key.data (tagContent.length + 1) tagContent none).map String.mk

/-- Model of `Parser::handle_close_tag`: `</if>` / `</for>` close the innermost open
directive only when it matches; otherwise the tag falls through to text. -/
def handleCloseTag (rem : List Char) (st : PState) :
    Option (List Char × PState) :=
  if "</if>".data.isPrefixOf rem then
    match st.tagStack, st.nodesStack with
    | TagFrame.If test :: tags, frame :: stack =>
      some (rem.drop 5,
        appendNode { nodesStack := stack, tagStack := tags }
          (AstNode.If test frame.reverse))
    | _, _ => none
  else if "</for>".data.isPrefixOf rem then
    match st.tagStack, st.nodesStack with
    | TagFrame.For item coll o s c :: tags, frame :: stack =>
      some (rem.drop 6,
        appendNode { nodesStack := stack, tagStack := tags }
          (AstNode.For item coll o s c frame.reverse))
    | _, _ => none
  else none

/-- Model of `Parser::handle_if_tag`. -/
def handleIfTag (rem : List Char) (st : PState) :
    Option (List Char × PState) :=
  match findTagEnd rem false with
  | some endIdx =>
    let tagContent := (rem.drop 4).take (endIdx - 4)
    match extract_attr tagContent "test" with
    | some test =>
      some (rem.drop (endIdx + 1),
        { nodesStack := [] :: st.nodesStack,
          tagStack := TagFrame.If test :: st.tagStack })
    | none => none
  | none => none

/-- Model of `Parser::handle_for_tag`. -/
def handleForTag (rem : List Char) (st : PState) :
    Option (List Char × PState) :=
  match findTagEnd rem false with
  | some endIdx =>
    let tagContent := (rem.drop 5).take (endIdx - 5)
    match extract_attr tagContent "item", extract_attr tagContent "collection" with
    | some item, some coll =>
      let o := (extract_attr tagContent "open").getD ""
      let s := (extract_attr tagContent "sep").getD ","
      let c := (extract_attr tagContent "close").getD ""
      some (rem.drop (endIdx + 1),
        { nodesStack := [] :: st.nodesStack,
          tagStack := TagFrame.For item coll o s c :: st.tagStack })
    | _, _ => none
  | none => none

/-- Model of `Parser::handle_include_tag`. -/
def handleIncludeTag (rem : List Char) (st : PState) :
    Option (List Char × PState) :=
  match findTagEnd rem false with
  | some endIdx =>
    let tagContent := (rem.drop 8).take (endIdx - 8)
    match extract_attr tagContent "refid" with
    | some refid =>
      some (rem.drop (endIdx + 1), appendNode st (AstNode.Include refid))
    | none => none
  | none => none

/-- Model of `Parser::try_parse_tag`: dispatch on the tag opener; a failed handler
falls through to variable/text parsing. -/
def tryParseTag (rem : List Char) (st : PState) :
    Option (List Char × PState) :=
  if "</".data.isPrefixOf rem then handleCloseTag rem st
  else if "<if ".data.isPrefixOf rem then handleIfTag rem st
  else if "<for ".data.isPrefixOf rem then handleForTag rem st
  else if "<include".data.isPrefixOf rem then handleIncludeTag rem st
  else none

/-- Model of `Parser::try_parse_var`: `#{name}` with a non-empty trimmed name. -/
def tryParseVar (rem : List Char) (st : PState) :
    Option (List Char × PState) :=
  if "#\x7b".data.isPrefixOf rem then
    match idxOfChar '}' rem with
    | some endIdx =>
      let varName := trimChars ((rem.drop 2).take (endIdx - 2))
      if varName ≠ [] then
        some (rem.drop (endIdx + 1),
          appendNode st (AstNode.Var (String.mk varName)))
      else none
    | none => none
  else none

/-- Model of `Parser::parse_text`: consume text up to the next `<` or `#{` (at least
one character). -/
def parseText (rem : List Char) (st : PState) : List Char × PState :=
  let nextTag := (idxOfChar '<' rem).getD rem.length
  let nextVar := (idxOfSub "#\x7b".data rem).getD rem.length
  let nextStop := min nextTag nextVar
  if nextStop > 0 then (rem.drop nextStop, appendText st (rem.take nextStop))
  else (rem.drop 1, appendText st (rem.take 1))

/-- The `while let Some(tag) = self.tag_stack.pop()` loop of
`Parser::close_remaining_tags`: implicitly close every directive still
open, innermost first, attaching its accumulated body to the frame below. -/
def closeRemainingGo : List TagFrame → List (List AstNode) → List (List AstNode)
  | [], stack => stack
  | tag :: tags, stack =>
    let frame := stack.headD []
    let node :=
      match tag with
      | TagFrame.If test => AstNode.If test frame.reverse
      | TagFrame.For item coll o s c => AstNode.For item coll o s c frame.reverse
    closeRemainingGo tags
      (match stack.tail with
       | f :: s => (node :: f) :: s
       | [] => [])

/-- Final step of `Parser::parse`: close open tags, pop the root frame. -/
def finishParse (st : PState) : List AstNode :=
  ((closeRemainingGo st.tagStack st.nodesStack).headD []).reverse

/-- The `while self.pos < len` loop of `Parser::parse`.  Each Rust
iteration consumes at least one character, so fuel `length + 1` never runs
out before the input does. -/
def parseLoop : Nat → List Char → PState → List AstNode
  | 0, _, st => finishParse st
  | fuel + 1, rem, st =>
    if rem = [] then finishParse st
    else
      match tryParseTag rem st with
      | some (rem', st') => parseLoop fuel rem' st'
      | none =>
        match tryParseVar rem st with
        | some (rem', st') => parseLoop fuel rem' st'
        | none =>
          let (rem', st') := parseText rem st
          parseLoop fuel rem' st'

/-- Model of `parse_template` from `src/tpl/parser.rs`: always returns a tree. -/
def parse_template (template : String) : List AstNode :=
  parseLoop (template.data.length + 1) template.data
    { nodesStack := [[]], tagStack := [] }

/-! ## Template cache (`src/tpl/cache.rs`) -/

/-- Model of `get_ast` from `src/tpl/cache.rs`.  The `DashMap` cache is modelled as a
partial map from template identity to `(ast, content_hash)`; the
`DefaultHasher` is an arbitrary hash function argument.  Returns the tree
together with the cache state after the call. -/
def get_ast (hash : String → Nat)
    (cache : String → Option (List AstNode × Nat))
    (templateName templateContent : String) :
    List AstNode × (String → Option (List AstNode × Nat)) :=
  let newHash := hash templateContent
  match cache templateName with
  | some cached =>
    if cached.2 = newHash then (cached.1, cache)
    else
      let ast := parse_template templateContent
      (ast, fun k => if k = templateName then some (ast, newHash) else cache k)
  | none =>
    let ast := parse_template templateContent
    (ast, fun k => if k = templateName then some (ast, newHash) else cache k)

/-! ## Transaction context (`src/transaction.rs`)

`TransactionContext` holds one connection and a `committed` flag.  The
connection is modelled as the claims describe it: a fake that records which
of `begin`/`commit`/`rollback` was last called.  Whether each underlying
call succeeds is an input (`ok`); the `Drop` implementation's spawned
rollback is modelled as the `dropTx` step. -/

/-- A call recorded by the fake connection. -/
inductive TxOp where
  | begin : TxOp
  | commit : TxOp
  | rollback : TxOp
  deriving DecidableEq

/-- The state of a live `TransactionContext` plus its connection's call log
(in call order). -/
structure TxState where
  committed : Bool
  log : List TxOp

/-- State right after `TransactionContext::begin`: connection acquired,
`BEGIN` issued, `committed: false`. -/
def TxState.init : TxState := ⟨false, [.begin]⟩

/-- Model of `TransactionContext::commit`: the connection's `commit` is always
called; on success (`?` does not return early) the flag is set. -/
def commitCall (s : TxState) (ok : Bool) : TxState :=
  let s' := { s with log := s.log ++ [TxOp.commit] }
  if ok then { s' with committed := true } else s'

/-- Model of `TransactionContext::rollback`: the connection's `rollback` is always
called; the flag is set only if `r.is_ok()`. -/
def rollbackCall (s : TxState) (ok : Bool) : TxState :=
  let s' := { s with log := s.log ++ [TxOp.rollback] }
  if ok then { s' with committed := true } else s'

/-- A caller-visible action on a transaction context, tagged with whether
the underlying connection call succeeds. -/
inductive TxAction where
  | commit (ok : Bool) : TxAction
  | rollback (ok : Bool) : TxAction
  deriving DecidableEq

/-- Did the underlying call of this action succeed? -/
def TxAction.isOk : TxAction → Bool
  | .commit ok => ok
  | .rollback ok => ok

/-- The connection call an action performs. -/
def TxAction.toOp : TxAction → TxOp
  | .commit _ => TxOp.commit
  | .rollback _ => TxOp.rollback

/-- One caller action on the context. -/
def txStep (s : TxState) (a : TxAction) : TxState :=
  match a with
  | .commit ok => commitCall s ok
  | .rollback ok => rollbackCall s ok

/-- Run a sequence of caller actions from `begin`. -/
def runTx (acts : List TxAction) : TxState :=
  acts.foldl txStep TxState.init

/-- Model of `Drop for TransactionContext`: if never marked committed, issue a
rollback on the held connection (the spawned task's effect). -/
def dropTx (s : TxState) : TxState :=
  if s.committed then s else { s with log := s.log ++ [TxOp.rollback] }

/-! ## Auxiliary predicates and spec-side definitions used by the claims -/

/-- The `?`-placeholder driver of the claims' examples (the test
`MockDriver` in `src/tpl/engine.rs`). -/
def qmarkDriver : Nat → String → String := fun _ _ => "?"

/-- Truthiness of a looked-up value per `eval_atom`'s operator-free branch:
anything but `Null` and `Bool(false)`. -/
def truthyValue : Value → Bool
  | .Null => false
  | .Bool false => false
  | _ => true

/-- Does an atom contain one of the six comparison operators `eval_atom`
recognises? -/
def hasCompareOp (l : List Char) : Bool :=
  (splitOnceSub ['!', '='] l).isSome || (splitOnceSub ['=', '='] l).isSome ||
  (splitOnceSub ['>', '='] l).isSome || (splitOnceSub ['<', '='] l).isSome ||
  (splitOnceSub ['>'] l).isSome || (splitOnceSub ['<'] l).isSome

/-- Claim C1's reading of an atom, following the spec's words: an atom with
no comparison operator "is looked up and is truthy unless it resolves to
`Null` or `Bool(false)`" — with no empty-atom exception.  Operator atoms are
delegated to the code's evaluation (claim C6's subject). -/
def evalAtomC1Spec (atom : String) (ctx : Context) : Bool :=
  let e := trimChars atom.data
  if hasCompareOp e then eval_atom atom ctx
  else truthyValue (ctx.lookup (String.mk e))

/-- Claim C1's reading of the boolean expression: some `" or "` branch has
all of its `" and "` atoms true. -/
def evalExprC1Spec (expr : String) (ctx : Context) : Bool :=
  ((splitOnSub " or ".data expr.data).map String.mk).any fun part =>
    ((splitOnSub " and ".data part.data).map String.mk).all fun atom =>
      evalAtomC1Spec atom ctx

/-- Claim C5's reading of `Context::lookup`, following the spec's words: a
dotted path resolves its head segment through locals-then-root and then
walks the remaining segments through `Map` entries; a plain key goes
through locals-then-root; no exact-match-first step for dotted keys. -/
def lookupC5Claim (c : Context) (key : String) : Value :=
  match (splitOnSub ['.'] key.data).map String.mk with
  | [] => .Null
  | [single] => (c.get_from_scope single).getD .Null
  | head :: rest =>
    match c.get_from_scope head with
    | some headValue => (resolvePathParts headValue rest).getD .Null
    | none => .Null

/-- The amended C5 lookup: first the whole key (dotted or not) is tried as
an exact match through locals-then-root; only if that misses does a dotted
key fall back to head resolution plus a strict `Map` walk; everything else
degrades to `Null`. -/
def lookupC5Amended (c : Context) (key : String) : Value :=
  match c.get_from_scope key with
  | some v => v
  | none =>
    match (splitOnSub ['.'] key.data).map String.mk with
    | [] => .Null
    | [_] => .Null
    | head :: rest =>
      match c.get_from_scope head with
      | some headValue =>
        match resolvePathParts headValue rest with
        | some target => target
        | none => .Null
      | none => .Null

/-- Is a value a `List` or a `Map`? -/
def isListOrMap : Value → Bool
  | .List _ => true
  | .Map _ => true
  | _ => false

/-- One-step containment: `v` is an element of a `List` or an entry value
of a `Map`. -/
def IsChild (v w : Value) : Prop :=
  match w with
  | .List vs => v ∈ vs
  | .Map m => ∃ k, (k, v) ∈ m
  | _ => False

/-- Predicate: `v` is a strict subvalue of `w` (one or more containment steps). -/
def Subvalue (v w : Value) : Prop := Relation.TransGen IsChild v w

/-- Builds `n` placeholders joined by `sep` (`first` is the renderer's
first-iteration flag): `"?"`, `"?" ++ sep ++ "?"`, …. -/
def qmarks (sep : String) : Bool → Nat → String
  | _, 0 => ""
  | true, n + 1 => "?" ++ qmarks sep false n
  | false, n + 1 => sep ++ "?" ++ qmarks sep false n

/-! ## Helper lemmas -/

theorem render_nil (cache : String → Option (List AstNode)) (fuel : Nat)
    (ctx : Context) (buf : RenderBuffer) : render cache fuel [] ctx buf = buf := by
  cases fuel <;> rfl

theorem parseLoop_nil (fuel : Nat) (st : PState) :
    parseLoop fuel [] st = finishParse st := by
  cases fuel <;> rfl

theorem idxOfChar_eq_none {c : Char} {l : List Char} (h : c ∉ l) :
    idxOfChar c l = none := by
  induction l with
  | nil => rfl
  | cons x xs ih =>
    simp only [List.mem_cons, not_or] at h
    have hx : ¬x = c := fun hx => h.1 hx.symm
    simp [idxOfChar, hx, ih h.2]

theorem idxOfSub_eq_none {p : Char} {ps l : List Char} (h : p ∉ l) :
    idxOfSub (p :: ps) l = none := by
  induction l with
  | nil => simp [idxOfSub, List.isPrefixOf]
  | cons x xs ih =>
    simp only [List.mem_cons, not_or] at h
    have hb : (p == x) = false := beq_eq_false_iff_ne.mpr h.1
    have hpre : (p :: ps).isPrefixOf (x :: xs) = false := by
      simp [List.isPrefixOf, hb]
    simp [idxOfSub, hpre, ih h.2]

theorem tryParseTag_eq_none (c : Char) (cs : List Char) (st : PState)
    (h : ¬c = '<') : tryParseTag (c :: cs) st = none := by
  have hb : ('<' == c) = false := beq_eq_false_iff_ne.mpr (Ne.symm h)
  have h1 : "</".data.isPrefixOf (c :: cs) = false := by
    simp [List.isPrefixOf, hb]
  have h2 : "<if ".data.isPrefixOf (c :: cs) = false := by
    simp [List.isPrefixOf, hb]
  have h3 : "<for ".data.isPrefixOf (c :: cs) = false := by
    simp [List.isPrefixOf, hb]
  have h4 : "<include".data.isPrefixOf (c :: cs) = false := by
    simp [List.isPrefixOf, hb]
  simp [tryParseTag, h1, h2, h3, h4]

theorem tryParseVar_eq_none (c : Char) (cs : List Char) (st : PState)
    (h : ¬c = '#') : tryParseVar (c :: cs) st = none := by
  have hb : ('#' == c) = false := beq_eq_false_iff_ne.mpr (Ne.symm h)
  have h1 : "#\x7b".data.isPrefixOf (c :: cs) = false := by
    simp [List.isPrefixOf, hb]
  simp [tryParseVar, h1]

/-- One `parseLoop` iteration on plain text (no `<`, no `#`) consumes the
whole remaining input as a single merged text fragment. -/
theorem parseLoop_text (inner : List Char) (hne : inner ≠ [])
    (hlt : '<' ∉ inner) (hhash : '#' ∉ inner) (fuel : Nat) (st : PState) :
    parseLoop (fuel + 1) inner st = finishParse (appendText st inner) := by
  obtain ⟨c, cs, rfl⟩ := List.exists_cons_of_ne_nil hne
  simp only [List.mem_cons, not_or] at hlt hhash
  have htag := tryParseTag_eq_none c cs st (fun hx => hlt.1 hx.symm)
  have hvar := tryParseVar_eq_none c cs st (fun hx => hhash.1 hx.symm)
  have hchar : idxOfChar '<' (c :: cs) = none :=
    idxOfChar_eq_none (by simp only [List.mem_cons, not_or]; exact hlt)
  have hsub : idxOfSub "#\x7b".data (c :: cs) = none :=
    idxOfSub_eq_none (by simp only [List.mem_cons, not_or]; exact hhash)
  rw [parseLoop, if_neg (by simp : ¬(c :: cs) = [])]
  rw [htag, hvar]
  simp only [parseText, hchar, hsub, Option.getD_none, min_self]
  rw [if_pos (by simp : 0 < (c :: cs).length)]
  rw [List.drop_length, List.take_length]
  exact parseLoop_nil fuel _

/-- The first `parseLoop` iteration on an input opening with
`<if test="x">` pushes the corresponding frame and consumes the tag. -/
theorem parseLoop_ifOpen (inner : List Char) (fuel : Nat) (st : PState) :
    parseLoop (fuel + 1) ("<if test=\"x\">".data ++ inner) st =
      parseLoop fuel inner
        { nodesStack := [] :: st.nodesStack,
          tagStack := TagFrame.If "x" :: st.tagStack } := rfl

/-! ## Claim C3 — the parser never fails, auto-closes, keeps malformed tags -/

/-- Claim C3: `parse_template` is total by construction (a Lean function on
all of `String`); any directive still open at end of input is implicitly
closed with its accumulated body attached: for every non-empty plain-text
tail `inner` (no `<`, no `#`), the unbalanced input `<if test="x">inner`
parses to a single `If` node with body `Text inner` — in particular
`<if test="x">body`; and a malformed tag that matches no known grammar
(here `<if test=x>`, unquoted attribute) is kept as literal text. -/
theorem parse_template_auto_close_and_malformed :
    (∀ inner : List Char, inner ≠ [] → '<' ∉ inner → '#' ∉ inner →
      parse_template (String.mk ("<if test=\"x\">".data ++ inner)) =
        [AstNode.If "x" [AstNode.Text (String.mk inner)]]) ∧
    parse_template "<if test=\"x\">body" =
      [AstNode.If "x" [AstNode.Text "body"]] ∧
    parse_template "<if test=x>body" = [AstNode.Text "<if test=x>body"] := by
  refine ⟨?_, rfl, rfl⟩
  intro inner hne hlt hhash
  show parseLoop (("<if test=\"x\">".data ++ inner).length + 1)
      ("<if test=\"x\">".data ++ inner) { nodesStack := [[]], tagStack := [] } = _
  rw [List.length_append, Nat.add_comm "<if test=\"x\">".data.length inner.length]
  rw [show "<if test=\"x\">".data.length = 13 from rfl]
  rw [parseLoop_ifOpen inner (inner.length + 13)]
  have h2 := parseLoop_text inner hne hlt hhash (inner.length + 12)
    { nodesStack := [[], []], tagStack := [TagFrame.If "x"] }
  rw [show inner.length + 13 = inner.length + 12 + 1 from rfl, h2]
  rfl

theorem parse_template_auto_close_witness :
    parse_template "<if test=\"x\">tail or body" =
      [AstNode.If "x" [AstNode.Text "tail or body"]] :=
  parse_template_auto_close_and_malformed.1 "tail or body".data
    (by decide) (by decide) (by decide)

/-! ## Claim C4 — the template cache hits only on matching content hash -/

/-- Claim C4: `get_ast` returns the cached tree unchanged (no recompilation,
cache state untouched) exactly when an entry exists under the identity with
a hash equal to the supplied content's hash; when the entry is missing or
its stored hash differs, the content is recompiled, the entry is replaced
by the new `(tree, hash)` (other identities untouched), and the new tree is
returned — a changed template under the same identity never reuses the
stale tree. -/
theorem get_ast_cache_contract (hash : String → Nat)
    (cache : String → Option (List AstNode × Nat)) (name content : String) :
    (∀ ast₀ h₀, cache name = some (ast₀, h₀) → h₀ = hash content →
      get_ast hash cache name content = (ast₀, cache)) ∧
    ((match cache name with
      | some cached => cached.2 ≠ hash content
      | none => True) →
      (get_ast hash cache name content).1 = parse_template content ∧
      (get_ast hash cache name content).2 name =
        some (parse_template content, hash content) ∧
      ∀ k, k ≠ name → (get_ast hash cache name content).2 k = cache k) := by
  constructor
  · intro ast₀ h₀ hsome hhash
    simp [get_ast, hsome, hhash]
  · intro hmiss
    cases hc : cache name with
    | none =>
      refine ⟨by simp [get_ast, hc], by simp [get_ast, hc], ?_⟩
      intro k hk
      simp [get_ast, hc, hk]
    | some cached =>
      rw [hc] at hmiss
      refine ⟨by simp [get_ast, hc, hmiss], by simp [get_ast, hc, hmiss], ?_⟩
      intro k hk
      simp [get_ast, hc, hmiss, hk]

theorem get_ast_cache_contract_witness :
    (get_ast String.length (fun _ => none) "user.findAll" "select 1").1 =
      parse_template "select 1" ∧
    (get_ast String.length (fun _ => none) "user.findAll" "select 1").2
        "user.findAll" = some (parse_template "select 1", 8) ∧
    (get_ast String.length
      (fun k => if k = "user.findAll" then some ([AstNode.Text "old"], 99) else none)
      "user.findAll" "select 1").1 = parse_template "select 1" ∧
    get_ast String.length
      (fun k => if k = "user.findAll" then some ([AstNode.Text "old"], 8) else none)
      "user.findAll" "select 1" =
      ([AstNode.Text "old"],
        fun k => if k = "user.findAll" then some ([AstNode.Text "old"], 8) else none) := by
  refine ⟨?_, ?_, ?_, ?_⟩
  · exact ((get_ast_cache_contract String.length (fun _ => none)
      "user.findAll" "select 1").2 trivial).1
  · exact ((get_ast_cache_contract String.length (fun _ => none)
      "user.findAll" "select 1").2 trivial).2.1
  · exact ((get_ast_cache_contract String.length
      (fun k => if k = "user.findAll" then some ([AstNode.Text "old"], 99) else none)
      "user.findAll" "select 1").2 (by simp; decide)).1
  · exact (get_ast_cache_contract String.length
      (fun k => if k = "user.findAll" then some ([AstNode.Text "old"], 8) else none)
      "user.findAll" "select 1").1 [AstNode.Text "old"] 8 (by simp) rfl

/-! ## Claim C7 — rendering never fails on a missing name -/

/-- Claim C7: A `Var` node whose name resolves to nothing (`lookup` degrades
to `Null`) still emits the driver's placeholder and appends one parameter
bound to `Null`; an `Include` node whose refid is not in the cache
contributes nothing to the SQL text or the parameter list. -/
theorem render_missing_lookups_degrade
    (cache : String → Option (List AstNode)) (fuel : Nat)
    (name refid : String) (ctx : Context) (buf : RenderBuffer) :
    (ctx.lookup name = Value.Null →
      render cache (fuel + 1) [AstNode.Var name] ctx buf =
        { buf with
          params := buf.params ++ [(name, Value.Null)],
          param_count := buf.param_count + 1,
          sql := buf.sql ++ buf.driver (buf.param_count + 1) name }) ∧
    (cache refid = none →
      render cache (fuel + 1) [AstNode.Include refid] ctx buf = buf) := by
  constructor
  · intro hnull
    show render cache fuel []
        ctx { buf with
          params := buf.params ++ [(name, ctx.lookup name)],
          param_count := buf.param_count + 1,
          sql := buf.sql ++ buf.driver (buf.param_count + 1) name } = _
    rw [hnull, render_nil]
  · intro hmiss
    show render cache fuel [] ctx
        (match cache refid with
          | some cachedAst => render cache fuel cachedAst ctx buf
          | none => buf) = buf
    rw [hmiss, render_nil]

theorem render_missing_lookups_degrade_witness :
    render (fun _ => none) 5 [AstNode.Var "ghost"]
        ⟨Value.Map [], []⟩ ⟨"select ", [], qmarkDriver, 0⟩ =
      ⟨"select ?", [("ghost", Value.Null)], qmarkDriver, 1⟩ ∧
    render (fun _ => none) 5 [AstNode.Include "no.such.id"]
        ⟨Value.Map [], []⟩ ⟨"select ", [], qmarkDriver, 0⟩ =
      ⟨"select ", [], qmarkDriver, 0⟩ := by
  constructor
  · exact (render_missing_lookups_degrade (fun _ => none) 4 "ghost" "no.such.id"
      ⟨Value.Map [], []⟩ ⟨"select ", [], qmarkDriver, 0⟩).1 rfl
  · exact (render_missing_lookups_degrade (fun _ => none) 4 "ghost" "no.such.id"
      ⟨Value.Map [], []⟩ ⟨"select ", [], qmarkDriver, 0⟩).2 rfl

/-! ## Claims C9 and C10 — transaction drop issues rollback iff never
marked committed -/

theorem txStep_committed (s : TxState) (a : TxAction) :
    (txStep s a).committed = (s.committed || a.isOk) := by
  cases a with
  | commit ok => cases ok <;> simp [txStep, commitCall, TxAction.isOk]
  | rollback ok => cases ok <;> simp [txStep, rollbackCall, TxAction.isOk]

theorem txStep_log (s : TxState) (a : TxAction) :
    (txStep s a).log = s.log ++ [a.toOp] := by
  cases a with
  | commit ok => cases ok <;> simp [txStep, commitCall, TxAction.toOp]
  | rollback ok => cases ok <;> simp [txStep, rollbackCall, TxAction.toOp]

theorem foldl_txStep_committed (acts : List TxAction) :
    ∀ s : TxState, (acts.foldl txStep s).committed =
      (s.committed || acts.any TxAction.isOk) := by
  induction acts with
  | nil => simp
  | cons a rest ih =>
    intro s
    simp [List.foldl_cons, ih, txStep_committed, Bool.or_assoc]

theorem foldl_txStep_log (acts : List TxAction) :
    ∀ s : TxState, (acts.foldl txStep s).log =
      s.log ++ acts.map TxAction.toOp := by
  induction acts with
  | nil => simp
  | cons a rest ih =>
    intro s
    simp [List.foldl_cons, ih, txStep_log]

theorem runTx_committed (acts : List TxAction) :
    (runTx acts).committed = acts.any TxAction.isOk := by
  simp [runTx, foldl_txStep_committed, TxState.init]

theorem runTx_log (acts : List TxAction) :
    (runTx acts).log = TxOp.begin :: acts.map TxAction.toOp := by
  simp [runTx, foldl_txStep_log, TxState.init]

/-- Claim C9: If a transaction context is dropped without `commit()` ever
having succeeded, then — provided the caller respects the documented
contract that no further call is made after a successful
`commit`/`rollback` — the last call the connection observes after the drop
is a rollback. -/
theorem drop_without_commit_rolls_back (acts : List TxAction)
    (hnc : TxAction.commit true ∉ acts)
    (hcontract : ∀ l a r, acts = l ++ a :: r → a.isOk = true → r = []) :
    (dropTx (runTx acts)).log.getLast? = some TxOp.rollback := by
  cases hany : acts.any TxAction.isOk with
  | false =>
    have hcom : (runTx acts).committed = false := by rw [runTx_committed, hany]
    rw [dropTx, hcom]
    simp
  | true =>
    have hcom : (runTx acts).committed = true := by rw [runTx_committed, hany]
    have hdrop : dropTx (runTx acts) = runTx acts := by
      rw [dropTx]
      simp [hcom]
    rw [hdrop]
    obtain ⟨a, hmem, hok⟩ := List.any_eq_true.mp hany
    obtain ⟨l, r, rfl⟩ := List.append_of_mem hmem
    have hr : r = [] := hcontract l a r rfl hok
    subst hr
    have hop : a.toOp = TxOp.rollback := by
      cases a with
      | commit ok =>
        cases ok with
        | true => exact absurd hmem hnc
        | false => simp [TxAction.isOk] at hok
      | rollback ok => rfl
    rw [runTx_log, List.map_append]
    rw [show List.map TxAction.toOp [a] = [a.toOp] from rfl, hop]
    rw [show TxOp.begin :: (l.map TxAction.toOp ++ [TxOp.rollback]) =
      (TxOp.begin :: l.map TxAction.toOp) ++ [TxOp.rollback] from rfl]
    exact List.getLast?_concat _

theorem drop_without_commit_rolls_back_witness :
    (dropTx (runTx [TxAction.commit false])).log.getLast? =
      some TxOp.rollback := by
  apply drop_without_commit_rolls_back
  · decide
  · intro l a r heq _
    cases l with
    | nil =>
      simp only [List.nil_append, List.cons.injEq] at heq
      exact heq.2.symm
    | cons x xs => simp at heq

/-- Claim C10: The drop path appends a rollback to the connection log exactly
when no `commit()` or explicit `rollback()` call ever succeeded; a
successful call of either sets the `committed` flag (so the drop never
sends a second rollback), while a failed call leaves the flag as it was. -/
theorem drop_rolls_back_iff_no_success (acts : List TxAction) (s : TxState) :
    ((dropTx (runTx acts)).log = (runTx acts).log ++ [TxOp.rollback] ↔
      ¬∃ a ∈ acts, a.isOk = true) ∧
    (runTx acts).committed = acts.any TxAction.isOk ∧
    (commitCall s true).committed = true ∧
    (commitCall s false).committed = s.committed ∧
    (rollbackCall s true).committed = true ∧
    (rollbackCall s false).committed = s.committed := by
  refine ⟨?_, runTx_committed acts, rfl, rfl, rfl, rfl⟩
  cases hany : acts.any TxAction.isOk with
  | false =>
    have hcomF : (runTx acts).committed = false := by rw [runTx_committed, hany]
    have hdrop : dropTx (runTx acts) =
        { runTx acts with log := (runTx acts).log ++ [TxOp.rollback] } := by
      rw [dropTx]
      simp [hcomF]
    rw [hdrop]
    simp only [true_iff]
    rintro ⟨a, hmem, hok⟩
    have : acts.any TxAction.isOk = true := List.any_eq_true.mpr ⟨a, hmem, hok⟩
    rw [hany] at this
    cases this
  | true =>
    have hcomT : (runTx acts).committed = true := by rw [runTx_committed, hany]
    have hdrop : dropTx (runTx acts) = runTx acts := by
      rw [dropTx]
      simp [hcomT]
    rw [hdrop]
    constructor
    · intro habs
      have hlen := congrArg List.length habs
      simp at hlen
    · intro hno
      exact absurd (List.any_eq_true.mp hany) hno

/-! ## Claim C1 — the `or`/`and` boolean-expression grammar -/

theorem evalAndLoop_eq_true_iff (ctx : Context) (atoms : List String) :
    evalAndLoop ctx atoms = true ↔ ∀ a ∈ atoms, eval_atom a ctx = true := by
  induction atoms with
  | nil => simp [evalAndLoop]
  | cons a rest ih =>
    rw [evalAndLoop]
    by_cases h : eval_atom a ctx = true
    · rw [if_pos h]
      simp [ih, h]
    · rw [if_neg h]
      constructor
      · intro hab
        exact absurd hab (by simp)
      · intro hall
        exact absurd (hall a (List.mem_cons_self a rest)) h

theorem evalOrLoop_eq_true_iff (ctx : Context) (parts : List String) :
    evalOrLoop ctx parts = true ↔
      ∃ p ∈ parts,
        evalAndLoop ctx ((splitOnSub " and ".data p.data).map String.mk) = true := by
  induction parts with
  | nil => simp [evalOrLoop]
  | cons p rest ih =>
    by_cases h : evalAndLoop ctx ((splitOnSub " and ".data p.data).map String.mk) = true
    · simp [evalOrLoop, h]
    · simp only [evalOrLoop, if_neg h, ih]
      constructor
      · rintro ⟨q, hq, hval⟩
        exact ⟨q, by simp [hq], hval⟩
      · rintro ⟨q, hq, hval⟩
        rcases List.mem_cons.mp hq with rfl | hq'
        · exact absurd hval h
        · exact ⟨q, hq', hval⟩

/-- Claim C1, counterexample: The claim fails on the code for the empty test
string against a context whose root map binds the empty key to a truthy
value: the single (empty) atom contains no comparison operator and its
lookup yields `Bool(true)` — neither `Null` nor `Bool(false)` — so the
claim's reading makes the expression true, but `eval_atom` returns `false`
for an empty trimmed atom before performing any lookup. -/
theorem eval_expr_empty_atom_counterexample :
    eval_expr "" ⟨Value.Map [("", Value.Bool true)], []⟩ = false ∧
    Context.lookup ⟨Value.Map [("", Value.Bool true)], []⟩ "" =
      Value.Bool true ∧
    hasCompareOp (trimChars "".data) = false ∧
    evalExprC1Spec "" ⟨Value.Map [("", Value.Bool true)], []⟩ = true :=
  ⟨rfl, rfl, rfl, rfl⟩

/-- Claim C1, amended: `eval_expr` is true iff some `" or "`-branch has all
of its `" and "`-atoms true; an atom containing no comparison operator
evaluates true iff it is non-empty after trimming **and** its (trimmed)
context lookup yields neither `Null` nor `Bool(false)` — the empty-atom
exception being the only amendment to the claim. -/
theorem eval_expr_or_and_grammar (expr : String) (ctx : Context) :
    (eval_expr expr ctx = true ↔
      ∃ part ∈ (splitOnSub " or ".data expr.data).map String.mk,
        ∀ atom ∈ (splitOnSub " and ".data part.data).map String.mk,
          eval_atom atom ctx = true) ∧
    (∀ atom : String, hasCompareOp (trimChars atom.data) = false →
      eval_atom atom ctx =
        if trimChars atom.data = [] then false
        else truthyValue (ctx.lookup (String.mk (trimChars atom.data)))) := by
  constructor
  · rw [eval_expr, evalOrLoop_eq_true_iff]
    constructor
    · rintro ⟨p, hp, hval⟩
      exact ⟨p, hp, (evalAndLoop_eq_true_iff ctx _).mp hval⟩
    · rintro ⟨p, hp, hall⟩
      exact ⟨p, hp, (evalAndLoop_eq_true_iff ctx _).mpr hall⟩
  · intro atom hop
    have optNone : ∀ o : Option (List Char × List Char),
        o.isSome = false → o = none := by
      intro o ho
      cases o with
      | none => rfl
      | some v => simp at ho
    simp only [hasCompareOp, Bool.or_eq_false_iff] at hop
    obtain ⟨⟨⟨⟨⟨h1, h2⟩, h3⟩, h4⟩, h5⟩, h6⟩ := hop
    by_cases he : trimChars atom.data = []
    · simp [eval_atom, he]
    · rw [if_neg he]
      simp only [eval_atom, optNone _ h1, optNone _ h2, optNone _ h3,
        optNone _ h4, optNone _ h5, optNone _ h6, if_neg he]
      cases hl : Context.lookup ctx (String.mk (trimChars atom.data)) <;>
        simp [truthyValue]

theorem eval_expr_or_and_grammar_witness :
    eval_expr "active or deleted" ⟨Value.Map [("active", Value.Bool true)], []⟩ =
      true := by
  rcases eval_expr_or_and_grammar "active or deleted"
    ⟨Value.Map [("active", Value.Bool true)], []⟩ with ⟨hiff, hatom⟩
  refine hiff.mpr ⟨"active", by decide, ?_⟩
  intro atom hmem
  rw [show (splitOnSub " and ".data "active".data).map String.mk = ["active"]
    from rfl] at hmem
  rw [List.mem_singleton.mp hmem, hatom "active" (by decide)]
  rfl

/-! ## Claim C5 — context lookup order -/

theorem splitOnceSub_some_length {pat l a b : List Char} (hpat : pat ≠ [])
    (h : splitOnceSub pat l = some (a, b)) : b.length < l.length := by
  induction l generalizing a with
  | nil =>
    rw [splitOnceSub, if_neg (by simp [List.isPrefixOf_iff_prefix, hpat])] at h
    exact absurd h (by simp)
  | cons c cs ih =>
    rw [splitOnceSub] at h
    by_cases hpre : pat.isPrefixOf (c :: cs)
    · rw [if_pos hpre] at h
      obtain ⟨rfl, rfl⟩ : a = [] ∧ b = (c :: cs).drop pat.length := by
        have := Option.some.inj h
        exact ⟨congrArg Prod.fst this.symm, congrArg Prod.snd this.symm⟩
      have hlen : 1 ≤ pat.length := by
        cases pat with
        | nil => exact absurd rfl hpat
        | cons p ps => simp
      have := List.length_drop pat.length (c :: cs)
      simp only [this, List.length_cons]
      omega
    · rw [if_neg hpre] at h
      cases hrec : splitOnceSub pat cs with
      | none => rw [hrec] at h; exact absurd h (by simp)
      | some p =>
        rw [hrec] at h
        obtain ⟨p1, p2⟩ := p
        have := Option.some.inj h
        have hb : b = p2 := congrArg Prod.snd this.symm
        subst hb
        have := ih (a := p1) hrec
        simp only [List.length_cons]
        omega

theorem splitOnSubGo_fuel {pat : List Char} (hpat : pat ≠ []) :
    ∀ n, ∀ l : List Char, l.length ≤ n → ∀ f₁ f₂, l.length < f₁ →
      l.length < f₂ → splitOnSubGo pat f₁ l = splitOnSubGo pat f₂ l := by
  intro n
  induction n with
  | zero =>
    intro l hl f₁ f₂ h₁ h₂
    obtain ⟨g₁, rfl⟩ : ∃ g, f₁ = g + 1 := ⟨f₁ - 1, by omega⟩
    obtain ⟨g₂, rfl⟩ : ∃ g, f₂ = g + 1 := ⟨f₂ - 1, by omega⟩
    have hnil : l = [] := List.eq_nil_of_length_eq_zero (Nat.le_zero.mp hl)
    subst hnil
    obtain ⟨p, ps, rfl⟩ := List.exists_cons_of_ne_nil hpat
    rfl
  | succ n ih =>
    intro l hl f₁ f₂ h₁ h₂
    obtain ⟨g₁, rfl⟩ : ∃ g, f₁ = g + 1 := ⟨f₁ - 1, by omega⟩
    obtain ⟨g₂, rfl⟩ : ∃ g, f₂ = g + 1 := ⟨f₂ - 1, by omega⟩
    cases hsp : splitOnceSub pat l with
    | none => simp only [splitOnSubGo, hsp]
    | some p =>
      obtain ⟨a, b⟩ := p
      have hblt : b.length < l.length := splitOnceSub_some_length hpat hsp
      simp only [splitOnSubGo, hsp, List.cons.injEq, true_and]
      exact ih b (by omega) g₁ g₂ (by omega) (by omega)

theorem splitOnSub_of_none {pat l : List Char}
    (h : splitOnceSub pat l = none) : splitOnSub pat l = [l] := by
  rw [splitOnSub]
  simp only [splitOnSubGo, h]

theorem splitOnSub_of_some {pat l a b : List Char} (hpat : pat ≠ [])
    (h : splitOnceSub pat l = some (a, b)) :
    splitOnSub pat l = a :: splitOnSub pat b := by
  have hblt : b.length < l.length := splitOnceSub_some_length hpat h
  have h1 : splitOnSub pat l = a :: splitOnSubGo pat l.length b := by
    rw [splitOnSub]
    simp only [splitOnSubGo, h]
  rw [h1, splitOnSub]
  exact congrArg _ (splitOnSubGo_fuel hpat l.length b (by omega)
    l.length (b.length + 1) hblt (by omega))

theorem splitOnSub_ne_nil (pat l : List Char) : splitOnSub pat l ≠ [] := by
  rw [splitOnSub]
  cases h : splitOnceSub pat l with
  | none => simp [splitOnSubGo, h]
  | some p => simp [splitOnSubGo, h]

/-- Claim C5, counterexample: The claim omits `lookup`'s exact-match-first
step: with a local binding for the literal key `"a.b"` (as a
`<for item="a.b" …>` loop would push) shadowing a root `a.b` path, the code
returns the exact match `3`, while the claim's head-then-walk reading
returns `5` (the repo's own `test_lookup_exact_match_with_dot` pins the
code's behaviour). -/
theorem lookup_exact_match_counterexample :
    Context.lookup
        ⟨Value.Map [("a", Value.Map [("b", Value.I64 5)])],
          [("a.b", Value.I64 3)]⟩ "a.b" = Value.I64 3 ∧
    lookupC5Claim
        ⟨Value.Map [("a", Value.Map [("b", Value.I64 5)])],
          [("a.b", Value.I64 3)]⟩ "a.b" = Value.I64 5 :=
  ⟨rfl, rfl⟩

/-- Claim C5, amended: `Context.lookup` first tries the whole key as an
exact match through locals (most recently pushed first, shadowing) then the
root `Map`; only when that misses does a dotted key resolve its head
segment through the same order and walk the remaining segments strictly
through `Map` entries; any failure degrades to `Null`.  Stated as
equivalence with the independently defined `lookupC5Amended`, plus the
shadowing guarantee that a pushed binding wins immediately. -/
theorem lookup_eq_lookupC5Amended :
    (∀ (c : Context) (key : String), c.lookup key = lookupC5Amended c key) ∧
    (∀ (c : Context) (k : String) (v : Value), (c.push k v).lookup k = v) := by
  constructor
  · intro c key
    rw [Context.lookup, lookupC5Amended]
    cases hscope : c.get_from_scope key with
    | some v => rfl
    | none =>
      cases hsp : splitOnceSub ['.'] key.data with
      | none =>
        rw [splitOnSub_of_none hsp]
        rfl
      | some p =>
        obtain ⟨head, rest⟩ := p
        rw [splitOnSub_of_some (by simp) hsp]
        obtain ⟨t, ts, hts⟩ :=
          List.exists_cons_of_ne_nil (splitOnSub_ne_nil ['.'] rest)
        rw [hts]
        simp only [List.map_cons, resolvePath, hts]
  · intro c k v
    have hfind : ((k, v) :: c.locals).find? (fun p => p.1 = k) = some (k, v) := by
      simp [List.find?]
    simp [Context.lookup, Context.push, Context.get_from_scope, hfind]

/-! ## Claim C6 — numeric coercion and epsilon equality in atoms -/

/-- A context binding `x` and `y` to the two comparison operands. -/
def cmpCtx (l r : Value) : Context := ⟨.Map [("x", l), ("y", r)], []⟩

/-- Claim C6: In atom evaluation, whenever both operands are numeric `Value`
variants (`I16`/`I32`/`I64`/`U8`/`F64`), every comparison coerces them via
`to_f64` and compares as floats, with `==`/`!=` decided within
`f64::EPSILON` rather than exactly — in particular `Int32(5)`, `Int64(5)`
and `Float64(5.0)` are all `==`-equal; when the operands are not both
numeric, `>`, `>=`, `<`, `<=` are always false and `==`/`!=` fall back to
structural equality of the `Value`. -/
theorem eval_atom_numeric_coercion (l r : Value) :
    (∀ a b : ℚ, to_f64 l = some a → to_f64 r = some b →
      eval_atom "x == y" (cmpCtx l r) = decide (|a - b| < eps64) ∧
      eval_atom "x != y" (cmpCtx l r) = decide (|a - b| > eps64) ∧
      eval_atom "x > y" (cmpCtx l r) = decide (a > b) ∧
      eval_atom "x >= y" (cmpCtx l r) = decide (a ≥ b) ∧
      eval_atom "x < y" (cmpCtx l r) = decide (a < b) ∧
      eval_atom "x <= y" (cmpCtx l r) = decide (a ≤ b)) ∧
    (to_f64 l = none ∨ to_f64 r = none →
      eval_atom "x > y" (cmpCtx l r) = false ∧
      eval_atom "x >= y" (cmpCtx l r) = false ∧
      eval_atom "x < y" (cmpCtx l r) = false ∧
      eval_atom "x <= y" (cmpCtx l r) = false ∧
      eval_atom "x == y" (cmpCtx l r) = beqValue l r ∧
      eval_atom "x != y" (cmpCtx l r) = ! beqValue l r) ∧
    (eval_atom "x == y" (cmpCtx (.I32 5) (.I64 5)) = true ∧
     eval_atom "x == y" (cmpCtx (.I32 5) (.F64 5)) = true ∧
     eval_atom "x == y" (cmpCtx (.I64 5) (.F64 5)) = true) := by
  have heq : eval_atom "x == y" (cmpCtx l r) = atomCompare "==" l r := rfl
  have hne : eval_atom "x != y" (cmpCtx l r) = atomCompare "!=" l r := rfl
  have hgt : eval_atom "x > y" (cmpCtx l r) = atomCompare ">" l r := rfl
  have hge : eval_atom "x >= y" (cmpCtx l r) = atomCompare ">=" l r := rfl
  have hlt : eval_atom "x < y" (cmpCtx l r) = atomCompare "<" l r := rfl
  have hle : eval_atom "x <= y" (cmpCtx l r) = atomCompare "<=" l r := rfl
  refine ⟨?_, ?_, ?_, ?_, ?_⟩
  · intro a b ha hb
    rw [heq, hne, hgt, hge, hlt, hle]
    refine ⟨?_, ?_, ?_, ?_, ?_, ?_⟩ <;> simp [atomCompare, ha, hb]
  · intro hnone
    rw [heq, hne, hgt, hge, hlt, hle]
    rcases hnone with h | h <;>
      refine ⟨?_, ?_, ?_, ?_, ?_, ?_⟩ <;> simp [atomCompare, h]
  · have h5 : eval_atom "x == y" (cmpCtx (.I32 5) (.I64 5)) =
        atomCompare "==" (.I32 5) (.I64 5) := rfl
    rw [h5]
    simp [atomCompare, to_f64, eps64]
  · have h5 : eval_atom "x == y" (cmpCtx (.I32 5) (.F64 5)) =
        atomCompare "==" (.I32 5) (.F64 5) := rfl
    rw [h5]
    simp [atomCompare, to_f64, eps64]
  · have h5 : eval_atom "x == y" (cmpCtx (.I64 5) (.F64 5)) =
        atomCompare "==" (.I64 5) (.F64 5) := rfl
    rw [h5]
    simp [atomCompare, to_f64, eps64]

theorem eval_atom_numeric_coercion_witness :
    eval_atom "x >= y" (cmpCtx (.I64 20) (.I64 18)) = true ∧
    eval_atom "x > y" (cmpCtx (.Str "zebra") (.Str "apple")) = false ∧
    eval_atom "x == y" (cmpCtx (.Str "tom") (.Str "tom")) =
      beqValue (.Str "tom") (.Str "tom") := by
  refine ⟨?_, ?_, ?_⟩
  · have h := ((eval_atom_numeric_coercion (.I64 20) (.I64 18)).1
      20 18 rfl rfl).2.2.2.1
    rw [h]
    norm_num
  · exact ((eval_atom_numeric_coercion (.Str "zebra") (.Str "apple")).2.1
      (Or.inl rfl)).1
  · exact ((eval_atom_numeric_coercion (.Str "tom") (.Str "tom")).2.1
      (Or.inl rfl)).2.2.2.2.1


/-! ## Claim C2 — the `For` directive -/

theorem lookup_push (c : Context) (k : String) (v : Value) :
    (c.push k v).lookup k = v := by
  have hfind : ((k, v) :: c.locals).find? (fun p => p.1 = k) = some (k, v) := by
    simp [List.find?]
  simp [Context.lookup, Context.push, Context.get_from_scope, hfind]

theorem render_var_push (cache : String → Option (List AstNode)) (g : Nat)
    (item : String) (v : Value) (ctx : Context) (b : RenderBuffer) :
    render cache (g + 1) [AstNode.Var item] (ctx.push item v) b =
      { b with
        params := b.params ++ [(item, v)],
        param_count := b.param_count + 1,
        sql := b.sql ++ b.driver (b.param_count + 1) item } := by
  show render cache g [] (ctx.push item v)
      { b with
        params := b.params ++ [(item, (ctx.push item v).lookup item)],
        param_count := b.param_count + 1,
        sql := b.sql ++ b.driver (b.param_count + 1) item } = _
  rw [lookup_push, render_nil]

/-- The `for (i, v) in arr.iter().enumerate()` loop of the `For` branch,
characterised for a `#{item}` body under the `?` driver: each element is
rendered with the binding `item -> element` pushed, iterations joined by
the separator. -/
theorem renderFor_fold (cache : String → Option (List AstNode)) (g : Nat)
    (item s : String) (ctx : Context) :
    ∀ (vs : List Value) (b : RenderBuffer) (first : Bool),
      b.driver = qmarkDriver →
      vs.foldl
        (fun (acc : RenderBuffer × Bool) v =>
          let b0 := if acc.2 then acc.1
            else { acc.1 with sql := acc.1.sql ++ s }
          (render cache (g + 1) [AstNode.Var item] (ctx.push item v) b0, false))
        (b, first) =
      ({ b with
          sql := b.sql ++ qmarks s first vs.length,
          params := b.params ++ vs.map (fun v => (item, v)),
          param_count := b.param_count + vs.length },
        (vs.isEmpty && first)) := by
  intro vs
  induction vs with
  | nil =>
    intro b first hdrv
    simp [qmarks, String.append_empty]
  | cons v vs ih =>
    intro b first hdrv
    rw [List.foldl_cons]
    cases first with
    | true =>
      simp only [if_pos rfl]
      rw [render_var_push]
      rw [ih _ false (by simp [hdrv])]
      simp [hdrv, qmarkDriver, qmarks, String.append_assoc, Nat.add_assoc,
        Nat.add_comm 1 vs.length]
    | false =>
      simp only [Bool.false_eq_true, if_neg, ite_false]
      rw [render_var_push]
      rw [ih _ false (by simp [hdrv])]
      simp [hdrv, qmarkDriver, qmarks, String.append_assoc, Nat.add_assoc,
        Nat.add_comm 1 vs.length]

theorem render_for_skip (cache : String → Option (List AstNode)) (fuel : Nat)
    (item coll o s cl : String) (body : List AstNode) (ctx : Context)
    (buf : RenderBuffer)
    (h : ∀ vs, ctx.lookup coll = Value.List vs → vs = []) :
    render cache (fuel + 1) [AstNode.For item coll o s cl body] ctx buf = buf := by
  rw [render]
  cases hl : ctx.lookup coll with
  | List vs =>
    have hvs : vs = [] := h vs hl
    subst hvs
    simp [render_nil]
  | Null => simp [render_nil]
  | Bool b => simp [render_nil]
  | I16 n => simp [render_nil]
  | I32 n => simp [render_nil]
  | I64 n => simp [render_nil]
  | U8 n => simp [render_nil]
  | F64 q => simp [render_nil]
  | Str st => simp [render_nil]
  | Bytes bs => simp [render_nil]
  | Date d => simp [render_nil]
  | Time t => simp [render_nil]
  | DateTime t => simp [render_nil]
  | DateTimeUtc t => simp [render_nil]
  | Decimal q => simp [render_nil]
  | Map m => simp [render_nil]

theorem render_for_var (cache : String → Option (List AstNode)) (g : Nat)
    (item coll o s cl : String) (vs : List Value) (ctx : Context)
    (buf : RenderBuffer) (hl : ctx.lookup coll = Value.List vs)
    (hne : vs ≠ []) (hdrv : buf.driver = qmarkDriver) :
    render cache (g + 2) [AstNode.For item coll o s cl [AstNode.Var item]]
        ctx buf =
      { buf with
        sql := buf.sql ++ o ++ qmarks s true vs.length ++ cl,
        params := buf.params ++ vs.map (fun v => (item, v)),
        param_count := buf.param_count + vs.length } := by
  rw [render, hl]
  have hie : vs.isEmpty = false := by
    cases vs with
    | nil => exact absurd rfl hne
    | cons a as => rfl
  simp only [hie, Bool.false_eq_true, if_false, render_nil, renderFor_fold, hdrv]

/-- Claim C2: A `For` node contributes nothing at all (not even the
open/close literals) when the collection lookup is not a `List` or is an
empty `List`; for a non-empty `List` and a `#{item}` body under the `?`
driver it emits `open`, renders the body once per element with the local
binding `item -> element` pushed for exactly that iteration, joins
iterations with `sep`, then emits `close`, binding one ordered parameter
per element; the spec's `ids = [1, 2]` example renders `"(?,?)"` with
parameters `1` and `2` in order. -/
theorem render_for_contract :
    (∀ (cache : String → Option (List AstNode)) (fuel : Nat)
      (item coll o s cl : String) (body : List AstNode) (ctx : Context)
      (buf : RenderBuffer),
      (∀ vs, ctx.lookup coll = Value.List vs → vs = []) →
      render cache (fuel + 1) [AstNode.For item coll o s cl body] ctx buf = buf) ∧
    (∀ (cache : String → Option (List AstNode)) (g : Nat)
      (item coll o s cl : String) (vs : List Value) (ctx : Context)
      (buf : RenderBuffer),
      ctx.lookup coll = Value.List vs → vs ≠ [] → buf.driver = qmarkDriver →
      render cache (g + 2) [AstNode.For item coll o s cl [AstNode.Var item]]
          ctx buf =
        { buf with
          sql := buf.sql ++ o ++ qmarks s true vs.length ++ cl,
          params := buf.params ++ vs.map (fun v => (item, v)),
          param_count := buf.param_count + vs.length }) ∧
    render (fun _ => none) 100
        (parse_template
          "<for item=\"i\" collection=\"ids\" open=\"(\" sep=\",\" close=\")\">#{i}</for>")
        ⟨Value.Map [("ids", Value.List [Value.I32 1, Value.I32 2])], []⟩
        ⟨"", [], qmarkDriver, 0⟩ =
      ⟨"(?,?)", [("i", Value.I32 1), ("i", Value.I32 2)], qmarkDriver, 2⟩ ∧
    render (fun _ => none) 100
        (parse_template
          "<for item=\"i\" collection=\"ids\" open=\"(\" sep=\",\" close=\")\">#{i}</for>")
        ⟨Value.Map [("ids", Value.List [])], []⟩ ⟨"", [], qmarkDriver, 0⟩ =
      ⟨"", [], qmarkDriver, 0⟩ :=
  ⟨render_for_skip, render_for_var, rfl, rfl⟩

theorem render_for_contract_witness :
    render (fun _ => none) 7
        [AstNode.For "i" "ids" "(" "," ")" [AstNode.Var "i"]]
        ⟨Value.Map [("ids", Value.List [Value.I64 1, Value.I64 2])], []⟩
        ⟨"", [], qmarkDriver, 0⟩ =
      ⟨"(" ++ qmarks "," true 2 ++ ")",
        [("i", Value.I64 1), ("i", Value.I64 2)], qmarkDriver, 2⟩ ∧
    render (fun _ => none) 7
        [AstNode.For "i" "ids" "(" "," ")" [AstNode.Var "i"]]
        ⟨Value.Map [("ids", Value.Bool true)], []⟩ ⟨"", [], qmarkDriver, 0⟩ =
      ⟨"", [], qmarkDriver, 0⟩ := by
  constructor
  · exact render_for_contract.2.1 (fun _ => none) 5 "i" "ids" "(" "," ")"
      [Value.I64 1, Value.I64 2]
      ⟨Value.Map [("ids", Value.List [Value.I64 1, Value.I64 2])], []⟩
      ⟨"", [], qmarkDriver, 0⟩ rfl (by simp) rfl
  · exact render_for_contract.1 (fun _ => none) 6 "i" "ids" "(" "," ")"
      [AstNode.Var "i"]
      ⟨Value.Map [("ids", Value.Bool true)], []⟩ ⟨"", [], qmarkDriver, 0⟩
      (fun vs h => by cases h)

/-! ## Claim C8 — bound parameters versus `List`/`Map` values -/

theorem assocGet_isChild {m : List (String × Value)} {key : String}
    {v : Value} (h : assocGet m key = some v) : IsChild v (Value.Map m) := by
  rw [assocGet] at h
  cases hf : m.find? (fun p => p.1 = key) with
  | none => rw [hf] at h; exact absurd h (by simp)
  | some p =>
    rw [hf] at h
    have hv : p.2 = v := by simpa using h
    refine ⟨p.1, ?_⟩
    have hp : (p.1, v) = p := by rw [← hv]
    rw [hp]
    exact List.mem_of_find?_eq_some hf

theorem get_from_scope_subvalue {c : Context} {key : String} {v : Value}
    (hloc : ∀ p ∈ c.locals, Subvalue p.2 c.root)
    (h : c.get_from_scope key = some v) : Subvalue v c.root := by
  rw [Context.get_from_scope] at h
  cases hf : c.locals.find? (fun p => p.1 = key) with
  | some p =>
    rw [hf] at h
    have hv : p.2 = v := Option.some.inj h
    exact hv ▸ hloc p (List.mem_of_find?_eq_some hf)
  | none =>
    rw [hf] at h
    cases hroot : c.root with
    | Map m =>
      rw [hroot] at h
      have h' : assocGet m key = some v := h
      exact Relation.TransGen.single (assocGet_isChild h')
    | Null => rw [hroot] at h; exact absurd h (by simp)
    | Bool b => rw [hroot] at h; exact absurd h (by simp)
    | I16 n => rw [hroot] at h; exact absurd h (by simp)
    | I32 n => rw [hroot] at h; exact absurd h (by simp)
    | I64 n => rw [hroot] at h; exact absurd h (by simp)
    | U8 n => rw [hroot] at h; exact absurd h (by simp)
    | F64 q => rw [hroot] at h; exact absurd h (by simp)
    | Str s => rw [hroot] at h; exact absurd h (by simp)
    | Bytes bs => rw [hroot] at h; exact absurd h (by simp)
    | Date d => rw [hroot] at h; exact absurd h (by simp)
    | Time t => rw [hroot] at h; exact absurd h (by simp)
    | DateTime t => rw [hroot] at h; exact absurd h (by simp)
    | DateTimeUtc t => rw [hroot] at h; exact absurd h (by simp)
    | Decimal q => rw [hroot] at h; exact absurd h (by simp)
    | List vs => rw [hroot] at h; exact absurd h (by simp)

theorem resolvePathParts_subvalue :
    ∀ (parts : List String) (hv w : Value),
      resolvePathParts hv parts = some w → w = hv ∨ Subvalue w hv := by
  intro parts
  induction parts with
  | nil =>
    intro hv w h
    exact Or.inl (Option.some.inj h).symm
  | cons p ps ih =>
    intro hv w h
    cases hv with
    | Map m =>
      rw [resolvePathParts] at h
      cases hg : assocGet m p with
      | none =>
        rw [hg] at h
        exact absurd h (by simp)
      | some u =>
        rw [hg] at h
        have hchild : IsChild u (Value.Map m) := assocGet_isChild hg
        rcases ih u w h with rfl | hsub
        · exact Or.inr (Relation.TransGen.single hchild)
        · exact Or.inr (hsub.tail hchild)
    | Null => simp [resolvePathParts] at h
    | Bool b => simp [resolvePathParts] at h
    | I16 n => simp [resolvePathParts] at h
    | I32 n => simp [resolvePathParts] at h
    | I64 n => simp [resolvePathParts] at h
    | U8 n => simp [resolvePathParts] at h
    | F64 q => simp [resolvePathParts] at h
    | Str s => simp [resolvePathParts] at h
    | Bytes bs => simp [resolvePathParts] at h
    | Date d => simp [resolvePathParts] at h
    | Time t => simp [resolvePathParts] at h
    | DateTime t => simp [resolvePathParts] at h
    | DateTimeUtc t => simp [resolvePathParts] at h
    | Decimal q => simp [resolvePathParts] at h
    | List vs => simp [resolvePathParts] at h

theorem lookup_null_or_subvalue (c : Context) (key : String)
    (hloc : ∀ p ∈ c.locals, Subvalue p.2 c.root) :
    c.lookup key = Value.Null ∨ Subvalue (c.lookup key) c.root := by
  rw [Context.lookup]
  split
  · rename_i v hscope
    exact Or.inr (get_from_scope_subvalue hloc hscope)
  · rename_i hscope
    split
    · rename_i head rest hsp
      split
      · rename_i headValue hhead
        split
        · rename_i target hres
          rw [resolvePath] at hres
          rcases resolvePathParts_subvalue _ headValue target hres with rfl | hsub
          · exact Or.inr (get_from_scope_subvalue hloc hhead)
          · exact Or.inr (hsub.trans (get_from_scope_subvalue hloc hhead))
        · exact Or.inl rfl
      · exact Or.inl rfl
    · exact Or.inl rfl

/-- The per-node buffer update of `render` on `node :: rest` (proof
device: `render cache (fuel+1) (node :: rest) ctx buf` continues with
`rest` on this buffer). -/
def renderNodeBuf (cache : String → Option (List AstNode)) (fuel : Nat)
    (node : AstNode) (ctx : Context) (buf : RenderBuffer) : RenderBuffer :=
  match node with
  | .Text t => { buf with sql := buf.sql ++ t }
  | .Var name =>
    { buf with
      params := buf.params ++ [(name, ctx.lookup name)],
      param_count := buf.param_count + 1,
      sql := buf.sql ++ buf.driver (buf.param_count + 1) name }
  | .Include refid =>
    match cache refid with
    | some cachedAst => render cache fuel cachedAst ctx buf
    | none => buf
  | .If test body =>
    if eval_expr test ctx then render cache fuel body ctx buf else buf
  | .For item collection openStr sep closeStr body =>
    match ctx.lookup collection with
    | .List arr =>
      if arr.isEmpty then buf
      else
        let bufOpen := { buf with sql := buf.sql ++ openStr }
        let folded := arr.foldl
          (fun (acc : RenderBuffer × Bool) v =>
            let b0 := if acc.2 then acc.1
              else { acc.1 with sql := acc.1.sql ++ sep }
            (render cache fuel body (ctx.push item v) b0, false))
          (bufOpen, true)
        { folded.1 with sql := folded.1.sql ++ closeStr }
    | _ => buf

theorem render_cons (cache : String → Option (List AstNode)) (fuel : Nat)
    (node : AstNode) (rest : List AstNode) (ctx : Context)
    (buf : RenderBuffer) :
    render cache (fuel + 1) (node :: rest) ctx buf =
      render cache fuel rest ctx (renderNodeBuf cache fuel node ctx buf) := by
  cases node <;> rfl

theorem render_params_subvalues :
    ∀ (fuel : Nat) (cache : String → Option (List AstNode))
      (nodes : List AstNode) (ctx : Context) (buf : RenderBuffer),
      (∀ p ∈ ctx.locals, Subvalue p.2 ctx.root) →
      ∀ p ∈ (render cache fuel nodes ctx buf).params,
        p ∈ buf.params ∨ p.2 = Value.Null ∨ Subvalue p.2 ctx.root := by
  intro fuel
  induction fuel with
  | zero =>
    intro cache nodes ctx buf hloc p hp
    exact Or.inl hp
  | succ fuel ih =>
    intro cache nodes ctx buf hloc p hp
    cases nodes with
    | nil => exact Or.inl hp
    | cons node rest =>
      rw [render_cons] at hp
      have hbuf1 : ∀ (buf1 : RenderBuffer),
          (∀ q ∈ buf1.params,
            q ∈ buf.params ∨ q.2 = Value.Null ∨ Subvalue q.2 ctx.root) →
          ∀ q ∈ (render cache fuel rest ctx buf1).params,
            q ∈ buf.params ∨ q.2 = Value.Null ∨ Subvalue q.2 ctx.root := by
        intro buf1 hq q hqmem
        rcases ih cache rest ctx buf1 hloc q hqmem with hin | hrest
        · exact hq q hin
        · exact Or.inr hrest
      refine hbuf1 _ ?_ p hp
      intro q hq
      cases node with
      | Text t =>
        simp only [renderNodeBuf] at hq
        exact Or.inl hq
      | Var name =>
        simp only [renderNodeBuf] at hq
        rcases List.mem_append.mp hq with hin | hone
        · exact Or.inl hin
        · have hqv : q = (name, ctx.lookup name) := List.mem_singleton.mp hone
          subst hqv
          rcases lookup_null_or_subvalue ctx name hloc with hn | hs
          · exact Or.inr (Or.inl hn)
          · exact Or.inr (Or.inr hs)
      | Include refid =>
        simp only [renderNodeBuf] at hq
        split at hq
        · rcases ih cache _ ctx buf hloc q hq with hin | hrest
          · exact Or.inl hin
          · exact Or.inr hrest
        · exact Or.inl hq
      | If test body =>
        simp only [renderNodeBuf] at hq
        split at hq
        · rcases ih cache body ctx buf hloc q hq with hin | hrest
          · exact Or.inl hin
          · exact Or.inr hrest
        · exact Or.inl hq
      | For item collection openStr sep closeStr body =>
        simp only [renderNodeBuf] at hq
        split at hq
        · rename_i arr hl
          split at hq
          · exact Or.inl hq
          · have hsubarr : Subvalue (Value.List arr) ctx.root := by
              rcases lookup_null_or_subvalue ctx collection hloc with hn | hs
              · rw [hl] at hn
                exact absurd hn (by simp)
              · rw [hl] at hs
                exact hs
            have helem : ∀ v ∈ arr, Subvalue v ctx.root := fun v hv =>
              Relation.TransGen.head (show IsChild v (Value.List arr) from hv)
                hsubarr
            have hfold : ∀ (l : List Value), (∀ v ∈ l, Subvalue v ctx.root) →
                ∀ (acc : RenderBuffer × Bool),
                (∀ r ∈ acc.1.params,
                  r ∈ buf.params ∨ r.2 = Value.Null ∨ Subvalue r.2 ctx.root) →
                ∀ r ∈ (l.foldl
                    (fun (acc : RenderBuffer × Bool) v =>
                      let b0 := if acc.2 then acc.1
                        else { acc.1 with sql := acc.1.sql ++ sep }
                      (render cache fuel body (ctx.push item v) b0, false))
                    acc).1.params,
                  r ∈ buf.params ∨ r.2 = Value.Null ∨ Subvalue r.2 ctx.root := by
              intro l
              induction l with
              | nil =>
                intro _ acc hacc r hr
                exact hacc r hr
              | cons v vs ihl =>
                intro hvsub acc hacc r hr
                rw [List.foldl_cons] at hr
                refine ihl (fun w hw => hvsub w (by simp [hw])) _ ?_ r hr
                intro w hw
                have hloc2 : ∀ pr ∈ (ctx.push item v).locals,
                    Subvalue pr.2 (ctx.push item v).root := by
                  intro pr hpr
                  rcases List.mem_cons.mp hpr with rfl | htl
                  · exact hvsub v (by simp)
                  · exact hloc pr htl
                have hb0 : (if acc.2 then acc.1
                    else { acc.1 with sql := acc.1.sql ++ sep }).params =
                    acc.1.params := by
                  cases acc.2 <;> rfl
                rcases ih cache body (ctx.push item v) _ hloc2 w hw with hin | hrest
                · rw [hb0] at hin
                  exact hacc w hin
                · exact Or.inr hrest
            exact hfold arr helem _ (fun r hr => Or.inl hr) q hq
        · exact Or.inl hq

/-- Claim C8, counterexample: The claim fails on the code: a `Var` node
whose name resolves to a `List` binds that `List` as a parameter verbatim
(`#{xs}` with `xs = []`), so rendering can produce a `List` parameter. -/
theorem render_param_list_counterexample :
    (render (fun _ => none) 1 [AstNode.Var "xs"]
        ⟨Value.Map [("xs", Value.List [])], []⟩
        ⟨"", [], qmarkDriver, 0⟩).params = [("xs", Value.List [])] ∧
    isListOrMap (Value.List []) = true :=
  ⟨rfl, rfl⟩

/-- Claim C8, amended: Rendering never fabricates a `List` or `Map`
parameter: every parameter it appends is either `Null` or a strict subvalue
of the context root (locals assumed to be strict subvalues of the root, as
`For` maintains); hence a `List`/`Map` parameter occurs only when such a
value sits inside the root — if no strict subvalue of the root is a `List`
or `Map`, no parameter is. -/
theorem render_params_no_list_map_amended :
    (∀ (fuel : Nat) (cache : String → Option (List AstNode))
      (nodes : List AstNode) (ctx : Context) (buf : RenderBuffer),
      (∀ p ∈ ctx.locals, Subvalue p.2 ctx.root) →
      ∀ p ∈ (render cache fuel nodes ctx buf).params,
        p ∈ buf.params ∨ p.2 = Value.Null ∨ Subvalue p.2 ctx.root) ∧
    (∀ (fuel : Nat) (cache : String → Option (List AstNode))
      (nodes : List AstNode) (ctx : Context) (buf : RenderBuffer),
      (∀ p ∈ ctx.locals, Subvalue p.2 ctx.root) →
      (∀ v, Subvalue v ctx.root → isListOrMap v = false) →
      ∀ p ∈ (render cache fuel nodes ctx buf).params,
        p ∈ buf.params ∨ isListOrMap p.2 = false) := by
  refine ⟨render_params_subvalues, ?_⟩
  intro fuel cache nodes ctx buf hloc hscalar p hp
  rcases render_params_subvalues fuel cache nodes ctx buf hloc p hp with
    hin | hnull | hsub
  · exact Or.inl hin
  · exact Or.inr (by rw [hnull]; rfl)
  · exact Or.inr (hscalar p.2 hsub)

theorem render_params_no_list_map_amended_witness :
    ("a", Value.Null) ∈ ([] : List (String × Value)) ∨
    ("a", Value.Null).2 = Value.Null ∨
    Subvalue ("a", Value.Null).2 (Value.Map []) :=
  render_params_no_list_map_amended.1 2 (fun _ => none) [AstNode.Var "a"]
    ⟨Value.Map [], []⟩ ⟨"", [], qmarkDriver, 0⟩ (by simp) ("a", Value.Null)
    (List.Mem.head _)
